import Mathlib

/-!
Shallow embedding of `src/index.js` (class `ThreadPool`).

The pool controller is logically single threaded: its bookkeeping state
(`queue`, `freeWorkers`, `workers`, the per-worker `onmessage`/`onerror`
handlers) is mutated only by `dispatch` calls, by worker completion
notifications and by `dispose`, each run to completion.  We therefore embed
the controller as a pure state machine: a `PoolState` record plus one Lean
function per JS method, each returning the next state together with the list
of observable events it emits (future settlements, messages posted to
workers, worker terminations, and queue removals).

Modelling choices:
* workers are identified by naturals; the constructor creates workers
  `0, …, n-1` (`freeWorkers` is the JS array, `workers` the JS `Set` in
  insertion order);
* a future is identified by the `Call.id` handed out by `dispatch`
  (`nextCall` is the id counter); `resolve`/`reject` of the promise executor
  become `Event.resolved`/`Event.rejected` events carrying that id;
* assigning `worker.onmessage`/`worker.onerror` closures is embedded as an
  association list `handlers : List (Nat × Nat)` mapping a worker id to the
  call id captured by its currently attached closures; setting the handlers
  to `null` removes the entry;
* the worker function itself is external: the environment may deliver a
  success value (`Op.msg`) or an error (`Op.err`) to any worker whose
  handlers are attached; deliveries to a worker with `null` handlers are
  dropped, which over-approximates the host's behaviour.
-/

namespace ThreadPool

/-- Errors that can settle a future: the `TypeError('threadpool disposed')`
raised by `dispose`, or an execution error produced by the worker function
(abstracted as a numeric code). -/
inductive JSError where
  | disposed : JSError
  | execError (code : Nat) : JSError
deriving DecidableEq, Repr

/-- A dispatched call: the id of its future and the argument tuple passed to
`dispatch` (arguments are opaque to the controller; we fix them to integers). -/
structure Call where
  id : Nat
  args : List Int
deriving DecidableEq, Repr

/-- Observable events emitted by the controller:
`resolved`/`rejected` settle the future of a call, `posted` is
`worker.postMessage(args)` for the call assigned to that worker,
`terminated` is `worker.terminate()`, and `dequeued` instruments
`queue.shift()` (removal of the queue head) for ordering arguments. -/
inductive Event where
  | resolved (callId : Nat) (value : Int)
  | rejected (callId : Nat) (err : JSError)
  | posted (workerId : Nat) (callId : Nat) (args : List Int)
  | terminated (workerId : Nat)
  | dequeued (callId : Nat)
deriving DecidableEq, Repr

/-- The controller's bookkeeping state, field for field after the JS class:
`queue` (JS `this.queue`, head = oldest), `freeWorkers` (JS array, pushed and
popped at the tail), `workers` (JS `Set` in insertion order), `handlers` (the
worker → captured-call map realised by the attached `onmessage`/`onerror`
closures), and `nextCall` (the id supply for futures). -/
structure PoolState where
  queue : List Call
  freeWorkers : List Nat
  workers : List Nat
  handlers : List (Nat × Nat)
  nextCall : Nat
deriving DecidableEq, Repr

/-- Look up the call id captured by worker `w`'s attached handlers. -/
def hfind (w : Nat) : List (Nat × Nat) → Option Nat
  | [] => none
  | p :: l => if p.1 = w then some p.2 else hfind w l

/-- Remove worker `w`'s handler entry (JS `worker.onmessage = null;
worker.onerror = null`). -/
def hremove (w : Nat) : List (Nat × Nat) → List (Nat × Nat)
  | [] => []
  | p :: l => if p.1 = w then hremove w l else p :: hremove w l

/-- JS `start(resolve, reject, args)`: if a free worker exists, pop the most
recently pushed one, attach handlers capturing this call, and post the
arguments to it; otherwise append the call to the tail of the queue. -/
def start (c : Call) (s : PoolState) : PoolState × List Event :=
  match s.freeWorkers.getLast? with
  | some w =>
      ({ s with
          freeWorkers := s.freeWorkers.dropLast,
          handlers := (w, c.id) :: hremove w s.handlers },
        [Event.posted w c.id c.args])
  | none =>
      ({ s with queue := s.queue ++ [c] }, [])

/-- JS `onFinish(worker)`: null the worker's handlers, push it onto
`freeWorkers`, and if the queue is non-empty, shift its head and `start` it
(which pops the worker just pushed). -/
def onFinish (w : Nat) (s : PoolState) : PoolState × List Event :=
  match s.queue with
  | [] =>
      ({ s with
          handlers := hremove w s.handlers,
          freeWorkers := s.freeWorkers ++ [w] }, [])
  | c :: rest =>
      let r := start c
        { s with
            handlers := hremove w s.handlers,
            freeWorkers := s.freeWorkers ++ [w],
            queue := rest }
      (r.1, Event.dequeued c.id :: r.2)

/-- The host fires worker `w`'s `onmessage` with result `v`: the attached
closure runs `onFinish` then resolves the captured call's future.  A worker
with null handlers drops the message. -/
def fireMessage (w : Nat) (v : Int) (s : PoolState) : PoolState × List Event :=
  match hfind w s.handlers with
  | some c =>
      let r := onFinish w s
      (r.1, r.2 ++ [Event.resolved c v])
  | none => (s, [])

/-- The host fires worker `w`'s `onerror` with error `err`: the attached
closure runs `onFinish` then rejects the captured call's future.  A worker
with null handlers drops the notification. -/
def fireError (w : Nat) (err : JSError) (s : PoolState) : PoolState × List Event :=
  match hfind w s.handlers with
  | some c =>
      let r := onFinish w s
      (r.1, r.2 ++ [Event.rejected c err])
  | none => (s, [])

/-- JS `dispatch(...args)`: mint a fresh future id and run `start` with the
new call (the returned promise is the future identified by that id). -/
def dispatch (args : List Int) (s : PoolState) : PoolState × List Event :=
  start ⟨s.nextCall, args⟩ { s with nextCall := s.nextCall + 1 }

/-- The `this.workers.forEach` loop of JS `dispose`: for each remaining
worker (in `Set` insertion order), terminate it and invoke its `onerror`
closure with the disposed-pool error. -/
def disposeBusy : List Nat → PoolState → PoolState × List Event
  | [], s => (s, [])
  | w :: ws, s =>
      let r1 := fireError w JSError.disposed s
      let r2 := disposeBusy ws r1.1
      (r2.1, (Event.terminated w :: r1.2) ++ r2.2)

/-- JS `dispose()`: terminate and delete every free worker from the set;
reject every queued call with the disposed-pool error and clear the queue;
then terminate every remaining (busy) worker and invoke its `onerror`
closure; finally clear the worker set and the free list. -/
def dispose (s : PoolState) : PoolState × List Event :=
  let workers1 := s.workers.filter (fun w => decide (w ∉ s.freeWorkers))
  let s2 : PoolState := { s with workers := workers1, queue := [] }
  let r3 := disposeBusy workers1 s2
  ({ r3.1 with workers := [], freeWorkers := [] },
    s.freeWorkers.map Event.terminated
      ++ s.queue.map (fun c => Event.rejected c.id JSError.disposed)
      ++ r3.2)

/-- JS `getFreeWorkerCount()`: `this.freeWorkers.length`. -/
def getFreeWorkerCount (s : PoolState) : Nat := s.freeWorkers.length

/-- JS `getRunningWorkerCount()`: `this.workers.size - this.freeWorkers.length`. -/
def getRunningWorkerCount (s : PoolState) : Nat :=
  s.workers.length - s.freeWorkers.length

/-- JS `getWaitingEventCount()`: `this.queue.length`. -/
def getWaitingEventCount (s : PoolState) : Nat := s.queue.length

/-- The state built by the JS constructor for a validated size `n`: no queued
calls, workers `0, …, n-1` all free, `workers` the `Set` of the same array. -/
def initState (n : Nat) : PoolState :=
  { queue := [], freeWorkers := List.range n, workers := List.range n,
    handlers := [], nextCall := 0 }

/-- JS `constructor(fn, size)`: throws `RangeError('size must greater than 0')`
when `size < 1`, before any worker is created; otherwise creates
`Array.from({length: size})` workers, i.e. `⌊size⌋` of them for a positive
fractional `size`.  The JS `size` is a number; we embed it as a rational. -/
def construct (size : ℚ) : Except String PoolState :=
  if size < 1 then Except.error "size must greater than 0"
  else Except.ok (initState (Rat.floor size).toNat)

/-- The operations the controller reacts to: a `dispatch` call, a success
or error notification from a worker, or `dispose`. -/
inductive Op where
  | dispatch (args : List Int)
  | msg (worker : Nat) (value : Int)
  | err (worker : Nat) (code : Nat)
  | dispose
deriving DecidableEq, Repr

/-- Run one operation to completion. -/
def step (op : Op) (s : PoolState) : PoolState × List Event :=
  match op with
  | Op.dispatch args => dispatch args s
  | Op.msg w v => fireMessage w v s
  | Op.err w code => fireError w (JSError.execError code) s
  | Op.dispose => dispose s

/-- Run a sequence of operations from state `s`, accumulating the trace. -/
def runFrom : PoolState → List Event → List Op → PoolState × List Event
  | s, t, [] => (s, t)
  | s, t, op :: ops =>
      let r := step op s
      runFrom r.1 (t ++ r.2) ops

/-- Run a sequence of operations on a freshly constructed pool of `n` workers. -/
def run (n : Nat) (ops : List Op) : PoolState × List Event :=
  runFrom (initState n) [] ops

/-- True when the operation sequence contains no `dispose`. -/
def noDispose (ops : List Op) : Bool :=
  ops.all (fun op => match op with | Op.dispose => false | _ => true)

/-- The ids, in order, of calls removed from the head of the queue
(`queue.shift()`) during a trace. -/
def dequeues (evs : List Event) : List Nat :=
  evs.filterMap (fun e => match e with | Event.dequeued c => some c | _ => none)

/-- The rejection events of a trace, as (call id, error) pairs in order. -/
def rejections (evs : List Event) : List (Nat × JSError) :=
  evs.filterMap (fun e =>
    match e with | Event.rejected c err => some (c, err) | _ => none)

/-- The resolution events of a trace, as (call id, value) pairs in order. -/
def resolutions (evs : List Event) : List (Nat × Int) :=
  evs.filterMap (fun e =>
    match e with | Event.resolved c v => some (c, v) | _ => none)

/-- Call id `c` has an unsettled future held by the pool: it is either
waiting in the queue or captured by a busy worker's handlers. -/
def outstanding (c : Nat) (s : PoolState) : Prop :=
  (∃ q ∈ s.queue, q.id = c) ∨ (∃ p ∈ s.handlers, p.2 = c)

/-- The spec's notion of a valid size argument: a positive integer. -/
def isPosInt (q : ℚ) : Prop := q.den = 1 ∧ 0 < q.num

/-- Remove the handler entries of all the given workers. -/
def hremoveAll : List Nat → List (Nat × Nat) → List (Nat × Nat)
  | [], l => l
  | w :: ws, l => hremoveAll ws (hremove w l)

/-- The events the `workers.forEach` loop of `dispose` emits, computed from
the handler map at loop entry: each worker is terminated and, if its handlers
captured a call, that call's future is rejected with the disposed error. -/
def busyEvents (hs : List (Nat × Nat)) : List Nat → List Event
  | [] => []
  | w :: ws =>
      Event.terminated w ::
        ((match hfind w hs with
          | some c => [Event.rejected c JSError.disposed]
          | none => []) ++ busyEvents hs ws)

/-- Structural well-formedness of the bookkeeping state: the worker set and
free list hold no duplicates, free workers belong to the set, the handler map
has at most one entry per worker and only for workers of the set, a worker of
the set is free exactly when its handlers are null, the queue holds calls in
dispatch order, and every recorded call id is below the id supply. -/
structure InvCore (s : PoolState) : Prop where
  workersNodup : s.workers.Nodup
  freeNodup : s.freeWorkers.Nodup
  freeSub : ∀ w ∈ s.freeWorkers, w ∈ s.workers
  keysNodup : (s.handlers.map Prod.fst).Nodup
  keysSub : ∀ p ∈ s.handlers, p.1 ∈ s.workers
  freeIff : ∀ w ∈ s.workers, (w ∈ s.freeWorkers ↔ hfind w s.handlers = none)
  queueSorted : (s.queue.map Call.id).Pairwise (· < ·)
  queueLt : ∀ c ∈ s.queue, c.id < s.nextCall

/-- The full reachability invariant: well-formedness plus the scheduling
invariant that nobody queues while a worker is free. -/
structure Inv (s : PoolState) extends InvCore s : Prop where
  queueFree : s.queue ≠ [] → s.freeWorkers = []

/-- The trace invariant behind the FIFO guarantee: ids leave the head of the
queue in strictly increasing order, every id already dequeued is smaller than
every id still queued, and all of them are below the id supply. -/
structure TraceInv (s : PoolState) (t : List Event) : Prop where
  inv : Inv s
  deqSorted : (dequeues t).Pairwise (· < ·)
  deqQueue : ∀ d ∈ dequeues t, ∀ c ∈ s.queue, d < c.id
  deqLt : ∀ d ∈ dequeues t, d < s.nextCall

/-- Future ids are unique: no call id appears twice among the queued calls
and the calls captured by busy workers' handlers, and every recorded id is
below the id supply; distinct outstanding futures have distinct ids. -/
structure IdsInv (s : PoolState) : Prop where
  idsNodup : (s.queue.map Call.id ++ s.handlers.map Prod.snd).Nodup
  handlerLt : ∀ p ∈ s.handlers, p.2 < s.nextCall

/-! ### Association-list lemmas for the handler map -/

theorem hfind_hremove_self (w : Nat) (l : List (Nat × Nat)) :
    hfind w (hremove w l) = none := by
  induction l with
  | nil => rfl
  | cons p l ih =>
    by_cases h : p.1 = w
    · simpa [hremove, h] using ih
    · simpa [hremove, hfind, h] using ih

theorem hfind_hremove_ne {w w' : Nat} (l : List (Nat × Nat)) (h : w' ≠ w) :
    hfind w' (hremove w l) = hfind w' l := by
  induction l with
  | nil => rfl
  | cons p l ih =>
    by_cases hp : p.1 = w
    · have hne : p.1 ≠ w' := fun he => h (he ▸ hp)
      rw [hremove, if_pos hp, ih, hfind, if_neg hne]
    · rw [hremove, if_neg hp, hfind, hfind]
      by_cases hp' : p.1 = w'
      · rw [if_pos hp', if_pos hp']
      · rw [if_neg hp', if_neg hp', ih]

theorem mem_of_hremove {w : Nat} {l : List (Nat × Nat)} {p : Nat × Nat} :
    p ∈ hremove w l → p ∈ l ∧ p.1 ≠ w := by
  induction l with
  | nil => intro h; simp [hremove] at h
  | cons q l ih =>
    intro h
    by_cases hq : q.1 = w
    · rw [hremove, if_pos hq] at h
      exact ⟨List.mem_cons_of_mem _ (ih h).1, (ih h).2⟩
    · rw [hremove, if_neg hq] at h
      rcases List.mem_cons.1 h with h | h
      · exact ⟨by simp [h], by simpa [h] using hq⟩
      · exact ⟨List.mem_cons_of_mem _ (ih h).1, (ih h).2⟩

theorem mem_hremove_of_mem {w : Nat} {l : List (Nat × Nat)} {p : Nat × Nat}
    (hne : p.1 ≠ w) : p ∈ l → p ∈ hremove w l := by
  induction l with
  | nil => intro h; simp at h
  | cons q l ih =>
    intro h
    rcases List.mem_cons.1 h with h | h
    · subst h
      rw [hremove, if_neg hne]
      exact List.mem_cons_self _ _
    · by_cases hq : q.1 = w
      · rw [hremove, if_pos hq]
        exact ih h
      · rw [hremove, if_neg hq]
        exact List.mem_cons_of_mem _ (ih h)

theorem mem_of_hfind {w c : Nat} {l : List (Nat × Nat)} :
    hfind w l = some c → (w, c) ∈ l := by
  induction l with
  | nil => intro h; simp [hfind] at h
  | cons p l ih =>
    intro h
    by_cases hp : p.1 = w
    · rw [hfind, if_pos hp] at h
      have hp2 : p = (w, c) := by
        cases p
        simp_all
      simp [hp2]
    · rw [hfind, if_neg hp] at h
      exact List.mem_cons_of_mem _ (ih h)

theorem hfind_eq_none_iff {w : Nat} {l : List (Nat × Nat)} :
    hfind w l = none ↔ ∀ p ∈ l, p.1 ≠ w := by
  induction l with
  | nil => simp [hfind]
  | cons p l ih =>
    by_cases hp : p.1 = w
    · simp [hfind, hp]
    · simp [hfind, hp, ih]

theorem hfind_isSome_of_mem {w c : Nat} {l : List (Nat × Nat)} :
    (w, c) ∈ l → (hfind w l).isSome := by
  induction l with
  | nil => intro h; simp at h
  | cons p l ih =>
    intro h
    rcases List.mem_cons.1 h with h | h
    · simp [hfind, ← h]
    · by_cases hp : p.1 = w
      · simp [hfind, hp]
      · simpa [hfind, hp] using ih h

theorem hfind_of_mem_keysNodup {w c : Nat} {l : List (Nat × Nat)}
    (hnd : (l.map Prod.fst).Nodup) : (w, c) ∈ l → hfind w l = some c := by
  induction l with
  | nil => intro h; simp at h
  | cons p l ih =>
    intro h
    simp only [List.map_cons, List.nodup_cons] at hnd
    rcases List.mem_cons.1 h with h | h
    · simp [hfind, ← h]
    · have hp : p.1 ≠ w := by
        intro he
        exact hnd.1 (he ▸ (List.mem_map.2 ⟨(w, c), h, rfl⟩))
      rw [hfind, if_neg hp]
      exact ih hnd.2 h

theorem hremove_eq_of_hfind_none {w : Nat} {l : List (Nat × Nat)} :
    hfind w l = none → hremove w l = l := by
  induction l with
  | nil => intro _; rfl
  | cons p l ih =>
    intro h
    by_cases hp : p.1 = w
    · rw [hfind, if_pos hp] at h
      simp at h
    · rw [hfind, if_neg hp] at h
      rw [hremove, if_neg hp, ih h]

theorem hremove_idem (w : Nat) (l : List (Nat × Nat)) :
    hremove w (hremove w l) = hremove w l :=
  hremove_eq_of_hfind_none (hfind_hremove_self w l)

theorem keysNodup_hremove {w : Nat} {l : List (Nat × Nat)}
    (h : (l.map Prod.fst).Nodup) : ((hremove w l).map Prod.fst).Nodup := by
  induction l with
  | nil => simp [hremove]
  | cons p l ih =>
    simp only [List.map_cons, List.nodup_cons] at h
    by_cases hp : p.1 = w
    · simpa [hremove, hp] using ih h.2
    · simp only [hremove, if_neg hp, List.map_cons, List.nodup_cons]
      refine ⟨fun hm => ?_, ih h.2⟩
      rcases List.mem_map.1 hm with ⟨q, hq, hq1⟩
      exact h.1 (List.mem_map.2 ⟨q, (mem_of_hremove hq).1, hq1⟩)

/-! ### Equation lemmas for the operations -/

theorem start_eq_of_getLast {s : PoolState} {w : Nat} (c : Call)
    (h : s.freeWorkers.getLast? = some w) :
    start c s =
      ({ s with
          freeWorkers := s.freeWorkers.dropLast,
          handlers := (w, c.id) :: hremove w s.handlers },
        [Event.posted w c.id c.args]) := by
  simp [start, h]

theorem start_eq_of_empty {s : PoolState} (c : Call)
    (h : s.freeWorkers = []) :
    start c s = ({ s with queue := s.queue ++ [c] }, []) := by
  simp [start, h]

theorem onFinish_eq_nil {s : PoolState} (w : Nat) (h : s.queue = []) :
    onFinish w s =
      ({ s with
          handlers := hremove w s.handlers,
          freeWorkers := s.freeWorkers ++ [w] }, []) := by
  simp [onFinish, h]

theorem onFinish_eq_cons {s : PoolState} (w : Nat) {c : Call} {rest : List Call}
    (h : s.queue = c :: rest) :
    onFinish w s =
      ({ s with
          handlers := (w, c.id) :: hremove w s.handlers,
          freeWorkers := s.freeWorkers,
          queue := rest },
        [Event.dequeued c.id, Event.posted w c.id c.args]) := by
  have hlast : (s.freeWorkers ++ [w]).getLast? = some w := by
    simp
  simp only [onFinish, h]
  rw [start_eq_of_getLast c hlast]
  simp [hremove_idem]

theorem freeWorkers_decomp {l : List Nat} {w : Nat} (h : l.getLast? = some w) :
    l = l.dropLast ++ [w] := by
  have hne : l ≠ [] := by
    intro he
    rw [he] at h
    simp at h
  have := List.dropLast_append_getLast hne
  rw [List.getLast?_eq_getLast l hne] at h
  rw [← Option.some_inj.1 h]
  exact this.symm

/-! ### The reachability invariant of the controller state -/

theorem invCore_start {s : PoolState} {c : Call} (h : InvCore s)
    (hc : c.id < s.nextCall)
    (hq : s.freeWorkers = [] → ∀ q ∈ s.queue, q.id < c.id) :
    InvCore (start c s).1 := by
  cases hl : s.freeWorkers.getLast? with
  | none =>
    have hfe : s.freeWorkers = [] := List.getLast?_eq_none_iff.1 hl
    rw [start_eq_of_empty c hfe]
    refine ⟨h.workersNodup, h.freeNodup, h.freeSub, h.keysNodup, h.keysSub,
      h.freeIff, ?_, ?_⟩
    · simp only [List.map_append, List.map_cons, List.map_nil]
      rw [List.pairwise_append]
      refine ⟨h.queueSorted, by simp, ?_⟩
      intro a ha b hb
      rcases List.mem_map.1 ha with ⟨q, hqm, rfl⟩
      simp only [List.mem_singleton] at hb
      subst hb
      exact hq hfe q hqm
    · intro q hqm
      rcases List.mem_append.1 hqm with hqm | hqm
      · exact h.queueLt q hqm
      · simp only [List.mem_singleton] at hqm
        subst hqm
        exact hc
  | some w =>
    rw [start_eq_of_getLast c hl]
    have hdec : s.freeWorkers = s.freeWorkers.dropLast ++ [w] := freeWorkers_decomp hl
    have hwfree : w ∈ s.freeWorkers := by
      rw [hdec]
      simp
    have hww : w ∈ s.workers := h.freeSub w hwfree
    have hwdrop : w ∉ s.freeWorkers.dropLast := by
      have hnd := h.freeNodup
      rw [hdec, List.nodup_append] at hnd
      intro hmem
      exact hnd.2.2 hmem (List.mem_singleton_self w)
    refine ⟨h.workersNodup, h.freeNodup.sublist (List.dropLast_sublist _), ?_, ?_, ?_, ?_,
      h.queueSorted, h.queueLt⟩
    · intro x hx
      exact h.freeSub x ((List.dropLast_sublist _).subset hx)
    · simp only [List.map_cons, List.nodup_cons]
      refine ⟨fun hmem => ?_, keysNodup_hremove h.keysNodup⟩
      rcases List.mem_map.1 hmem with ⟨p, hp, hp1⟩
      exact (mem_of_hremove hp).2 hp1
    · intro p hp
      rcases List.mem_cons.1 hp with hp | hp
      · subst hp
        exact hww
      · exact h.keysSub p (mem_of_hremove hp).1
    · intro x hx
      by_cases hxw : x = w
      · subst hxw
        constructor
        · intro hmem
          exact absurd hmem hwdrop
        · intro hnone
          rw [hfind, if_pos rfl] at hnone
          simp at hnone
      · have hmem_iff : x ∈ s.freeWorkers.dropLast ↔ x ∈ s.freeWorkers := by
          constructor
          · exact fun hm => (List.dropLast_sublist _).subset hm
          · intro hm
            rw [hdec] at hm
            rcases List.mem_append.1 hm with hm | hm
            · exact hm
            · simp only [List.mem_singleton] at hm
              exact absurd hm hxw
        have hfind_eq : hfind x ((w, c.id) :: hremove w s.handlers) = hfind x s.handlers := by
          rw [hfind]
          have : ¬((w, c.id) : Nat × Nat).1 = x := fun he => hxw (Eq.symm he)
          rw [if_neg this]
          exact hfind_hremove_ne _ hxw
        rw [hmem_iff, hfind_eq]
        exact h.freeIff x hx

theorem invCore_onFinish {s : PoolState} {w : Nat} (h : InvCore s)
    (hw : w ∈ s.workers) (hnf : w ∉ s.freeWorkers) :
    InvCore (onFinish w s).1 := by
  cases hq : s.queue with
  | nil =>
    rw [onFinish_eq_nil w hq]
    refine ⟨h.workersNodup, ?_, ?_, keysNodup_hremove h.keysNodup, ?_, ?_, ?_, ?_⟩
    · rw [List.nodup_append]
      exact ⟨h.freeNodup, List.nodup_singleton w,
        fun x hx hxw => hnf ((List.mem_singleton.1 hxw) ▸ hx)⟩
    · intro x hx
      rcases List.mem_append.1 hx with hx | hx
      · exact h.freeSub x hx
      · simp only [List.mem_singleton] at hx
        exact hx ▸ hw
    · intro p hp
      exact h.keysSub p (mem_of_hremove hp).1
    · intro x hx
      by_cases hxw : x = w
      · subst hxw
        constructor
        · intro _
          exact hfind_hremove_self x s.handlers
        · intro _
          exact List.mem_append.2 (Or.inr (List.mem_singleton_self x))
      · have hmem_iff : x ∈ s.freeWorkers ++ [w] ↔ x ∈ s.freeWorkers := by
          constructor
          · intro hm
            rcases List.mem_append.1 hm with hm | hm
            · exact hm
            · simp only [List.mem_singleton] at hm
              exact absurd hm hxw
          · exact fun hm => List.mem_append.2 (Or.inl hm)
        rw [hmem_iff, hfind_hremove_ne _ hxw]
        exact h.freeIff x hx
    · exact h.queueSorted
    · exact h.queueLt
  | cons c rest =>
    rw [onFinish_eq_cons w hq]
    have hsorted := h.queueSorted
    rw [hq, List.map_cons, List.pairwise_cons] at hsorted
    refine ⟨h.workersNodup, h.freeNodup, h.freeSub, ?_, ?_, ?_, hsorted.2, ?_⟩
    · simp only [List.map_cons, List.nodup_cons]
      refine ⟨fun hmem => ?_, keysNodup_hremove h.keysNodup⟩
      rcases List.mem_map.1 hmem with ⟨p, hp, hp1⟩
      exact (mem_of_hremove hp).2 hp1
    · intro p hp
      rcases List.mem_cons.1 hp with hp | hp
      · subst hp
        exact hw
      · exact h.keysSub p (mem_of_hremove hp).1
    · intro x hx
      by_cases hxw : x = w
      · subst hxw
        constructor
        · intro hmem
          exact absurd hmem hnf
        · intro hnone
          rw [hfind, if_pos rfl] at hnone
          simp at hnone
      · have hfind_eq : hfind x ((w, c.id) :: hremove w s.handlers) = hfind x s.handlers := by
          rw [hfind]
          have : ¬((w, c.id) : Nat × Nat).1 = x := fun he => hxw (Eq.symm he)
          rw [if_neg this]
          exact hfind_hremove_ne _ hxw
        rw [hfind_eq]
        exact h.freeIff x hx
    · intro q hqm
      exact h.queueLt q (hq ▸ List.mem_cons_of_mem c hqm)

theorem invCore_bump {s : PoolState} (h : InvCore s) :
    InvCore { s with nextCall := s.nextCall + 1 } :=
  ⟨h.workersNodup, h.freeNodup, h.freeSub, h.keysNodup, h.keysSub, h.freeIff,
    h.queueSorted, fun c hc => Nat.lt_succ_of_lt (h.queueLt c hc)⟩

theorem inv_dispatch {s : PoolState} (h : Inv s) (args : List Int) :
    Inv (dispatch args s).1 := by
  rw [dispatch]
  have hcore : InvCore (start ⟨s.nextCall, args⟩ { s with nextCall := s.nextCall + 1 }).1 := by
    refine invCore_start (invCore_bump h.toInvCore) (Nat.lt_succ_self _) ?_
    intro _ q hqm
    exact h.queueLt q hqm
  refine ⟨hcore, ?_⟩
  cases hl : s.freeWorkers.getLast? with
  | none =>
    have hfe : s.freeWorkers = [] := List.getLast?_eq_none_iff.1 hl
    rw [start_eq_of_empty _ (by simpa using hfe)]
    intro _
    exact hfe
  | some w =>
    rw [start_eq_of_getLast _ (by simpa using hl)]
    intro hne
    have hfe : s.freeWorkers = [] := h.queueFree hne
    rw [hfe] at hl
    simp at hl

theorem inv_fireMessage {s : PoolState} (h : Inv s) (w : Nat) (v : Int) :
    Inv (fireMessage w v s).1 := by
  cases hf : hfind w s.handlers with
  | none =>
    simp only [fireMessage, hf]
    exact h
  | some c =>
    have hw : w ∈ s.workers := h.keysSub _ (mem_of_hfind hf)
    have hnf : w ∉ s.freeWorkers := by
      intro hmem
      rw [(h.freeIff w hw).1 hmem] at hf
      simp at hf
    simp only [fireMessage, hf]
    refine ⟨invCore_onFinish h.toInvCore hw hnf, ?_⟩
    cases hq : s.queue with
    | nil =>
      rw [onFinish_eq_nil w hq]
      intro hne
      exact absurd hq hne
    | cons q rest =>
      rw [onFinish_eq_cons w hq]
      intro hne
      exact h.queueFree (by simp [hq])

theorem inv_fireError {s : PoolState} (h : Inv s) (w : Nat) (err : JSError) :
    Inv (fireError w err s).1 := by
  cases hf : hfind w s.handlers with
  | none =>
    simp only [fireError, hf]
    exact h
  | some c =>
    have hw : w ∈ s.workers := h.keysSub _ (mem_of_hfind hf)
    have hnf : w ∉ s.freeWorkers := by
      intro hmem
      rw [(h.freeIff w hw).1 hmem] at hf
      simp at hf
    simp only [fireError, hf]
    refine ⟨invCore_onFinish h.toInvCore hw hnf, ?_⟩
    cases hq : s.queue with
    | nil =>
      rw [onFinish_eq_nil w hq]
      intro hne
      exact absurd hq hne
    | cons q rest =>
      rw [onFinish_eq_cons w hq]
      intro hne
      exact h.queueFree (by simp [hq])

/-! ### Dispose: the busy-worker loop -/

theorem busyEvents_congr {hs hs' : List (Nat × Nat)} {ws : List Nat}
    (h : ∀ w ∈ ws, hfind w hs = hfind w hs') :
    busyEvents hs ws = busyEvents hs' ws := by
  induction ws with
  | nil => rfl
  | cons w ws ih =>
    rw [busyEvents, busyEvents, h w (List.mem_cons_self w ws),
      ih (fun w' hw' => h w' (List.mem_cons_of_mem w hw'))]

theorem fireError_eq_of_some {s : PoolState} {w c : Nat} (err : JSError)
    (hq : s.queue = []) (hf : hfind w s.handlers = some c) :
    fireError w err s =
      ({ s with
          handlers := hremove w s.handlers,
          freeWorkers := s.freeWorkers ++ [w] },
        [Event.rejected c err]) := by
  simp only [fireError, hf, onFinish_eq_nil w hq, List.nil_append]

theorem fireError_eq_of_none {s : PoolState} {w : Nat} (err : JSError)
    (hf : hfind w s.handlers = none) :
    fireError w err s = (s, []) := by
  simp only [fireError, hf]

theorem disposeBusy_spec (ws : List Nat) (s : PoolState) (hq : s.queue = []) :
    (disposeBusy ws s).1.queue = [] ∧
    (disposeBusy ws s).1.workers = s.workers ∧
    (disposeBusy ws s).1.nextCall = s.nextCall ∧
    (disposeBusy ws s).1.handlers = hremoveAll ws s.handlers := by
  induction ws generalizing s with
  | nil => exact ⟨hq, rfl, rfl, rfl⟩
  | cons w ws ih =>
    cases hf : hfind w s.handlers with
    | some c =>
      simp only [disposeBusy, fireError_eq_of_some JSError.disposed hq hf]
      exact ih { s with handlers := hremove w s.handlers,
                        freeWorkers := s.freeWorkers ++ [w] } hq
    | none =>
      simp only [disposeBusy, fireError_eq_of_none JSError.disposed hf]
      have hrem : hremove w s.handlers = s.handlers := hremove_eq_of_hfind_none hf
      have hrest := ih s hq
      rw [hremoveAll, hrem]
      exact hrest

theorem disposeBusy_events (ws : List Nat) (s : PoolState) (hq : s.queue = [])
    (hnd : ws.Nodup) : (disposeBusy ws s).2 = busyEvents s.handlers ws := by
  induction ws generalizing s with
  | nil => rfl
  | cons w ws ih =>
    rw [List.nodup_cons] at hnd
    cases hf : hfind w s.handlers with
    | some c =>
      simp only [disposeBusy, fireError_eq_of_some JSError.disposed hq hf]
      have hrec := ih { s with handlers := hremove w s.handlers,
                               freeWorkers := s.freeWorkers ++ [w] } hq hnd.2
      rw [hrec, busyEvents_congr (fun w' hw' =>
            @hfind_hremove_ne w w' s.handlers (fun he => hnd.1 (he ▸ hw')))]
      simp [busyEvents, hf]
    | none =>
      simp only [disposeBusy, fireError_eq_of_none JSError.disposed hf]
      rw [ih s hq hnd.2]
      simp [busyEvents, hf]

theorem hremoveAll_eq_nil {ws : List Nat} {l : List (Nat × Nat)} :
    (∀ p ∈ l, p.1 ∈ ws) → hremoveAll ws l = [] := by
  induction ws generalizing l with
  | nil =>
    intro h
    cases l with
    | nil => rfl
    | cons p l => simpa using h p (List.mem_cons_self p l)
  | cons w ws ih =>
    intro h
    rw [hremoveAll]
    refine ih ?_
    intro p hp
    rcases mem_of_hremove hp with ⟨hpl, hpw⟩
    rcases List.mem_cons.1 (h p hpl) with hc | hc
    · exact absurd hc hpw
    · exact hc

theorem dispose_components (s : PoolState) :
    (dispose s).1.queue = [] ∧ (dispose s).1.freeWorkers = [] ∧
    (dispose s).1.workers = [] ∧ (dispose s).1.nextCall = s.nextCall := by
  have hspec := disposeBusy_spec (s.workers.filter (fun w => decide (w ∉ s.freeWorkers)))
    { s with workers := s.workers.filter (fun w => decide (w ∉ s.freeWorkers)), queue := [] }
    rfl
  exact ⟨hspec.1, rfl, rfl, hspec.2.2.1⟩

theorem dispose_handlers_nil {s : PoolState} (h : Inv s) :
    (dispose s).1.handlers = [] := by
  have hspec := disposeBusy_spec (s.workers.filter (fun w => decide (w ∉ s.freeWorkers)))
    { s with workers := s.workers.filter (fun w => decide (w ∉ s.freeWorkers)), queue := [] }
    rfl
  have heq : (dispose s).1.handlers
      = hremoveAll (s.workers.filter (fun w => decide (w ∉ s.freeWorkers))) s.handlers :=
    hspec.2.2.2
  rw [heq]
  refine hremoveAll_eq_nil ?_
  intro p hp
  have hpw : p.1 ∈ s.workers := h.keysSub p hp
  have hpf : p.1 ∉ s.freeWorkers := by
    intro hmem
    have hn := (h.freeIff p.1 hpw).1 hmem
    have hs := hfind_isSome_of_mem (w := p.1) (c := p.2) (by simpa using hp)
    rw [hn] at hs
    simp at hs
  exact List.mem_filter.2 ⟨hpw, by simpa using hpf⟩

theorem inv_dispose {s : PoolState} (h : Inv s) : Inv (dispose s).1 := by
  obtain ⟨hq, hf, hw, _⟩ := dispose_components s
  have hh := dispose_handlers_nil h
  refine ⟨⟨?_, ?_, ?_, ?_, ?_, ?_, ?_, ?_⟩, ?_⟩
  · rw [hw]; exact List.nodup_nil
  · rw [hf]; exact List.nodup_nil
  · intro x hx; rw [hf] at hx; simp at hx
  · rw [hh]; simp
  · intro p hp; rw [hh] at hp; simp at hp
  · intro x hx; rw [hw] at hx; simp at hx
  · rw [hq]; simp
  · intro c hc; rw [hq] at hc; simp at hc
  · intro hne; exact absurd hq hne

theorem inv_step {s : PoolState} (h : Inv s) (op : Op) : Inv (step op s).1 := by
  cases op with
  | dispatch args => exact inv_dispatch h args
  | msg w v => exact inv_fireMessage h w v
  | err w code => exact inv_fireError h w (JSError.execError code)
  | dispose => exact inv_dispose h

theorem inv_initState (n : Nat) : Inv (initState n) := by
  refine ⟨⟨?_, ?_, ?_, ?_, ?_, ?_, ?_, ?_⟩, ?_⟩
  · exact List.nodup_range n
  · exact List.nodup_range n
  · intro w hw
    exact hw
  · simp [initState]
  · intro p hp
    simp [initState] at hp
  · intro w hw
    simpa [initState, hfind] using hw
  · simp [initState]
  · intro c hc
    simp [initState] at hc
  · intro hne
    simp [initState] at hne

theorem inv_runFrom {s : PoolState} (h : Inv s) (t : List Event) (ops : List Op) :
    Inv (runFrom s t ops).1 := by
  induction ops generalizing s t with
  | nil => exact h
  | cons op ops ih => exact ih (inv_step h op) _

theorem inv_run (n : Nat) (ops : List Op) : Inv (run n ops).1 :=
  inv_runFrom (inv_initState n) [] ops

/-! ### Counting lemmas -/

theorem length_filter_split {α : Type} (l : List α) (p : α → Bool) :
    (l.filter p).length + (l.filter (fun a => !(p a))).length = l.length := by
  induction l with
  | nil => rfl
  | cons a l ih =>
    cases ha : p a <;> simp [List.filter, ha, ← ih] <;> omega

theorem length_filter_mem {workers free : List Nat}
    (hwn : workers.Nodup) (hfn : free.Nodup) (hsub : ∀ w ∈ free, w ∈ workers) :
    (workers.filter (fun w => decide (w ∈ free))).length = free.length := by
  have h1 : free.Subperm (workers.filter (fun w => decide (w ∈ free))) :=
    List.subperm_of_subset hfn
      (fun x hx => List.mem_filter.2 ⟨hsub x hx, by simpa using hx⟩)
  have h2 : (workers.filter (fun w => decide (w ∈ free))).Subperm free :=
    List.subperm_of_subset (hwn.filter _)
      (fun x hx => by simpa using (List.mem_filter.1 hx).2)
  exact Nat.le_antisymm h2.length_le h1.length_le

theorem length_filter_not_mem {workers free : List Nat}
    (hwn : workers.Nodup) (hfn : free.Nodup) (hsub : ∀ w ∈ free, w ∈ workers) :
    (workers.filter (fun w => decide (w ∉ free))).length
      = workers.length - free.length := by
  have hsplit := length_filter_split workers (fun w => decide (w ∈ free))
  have hmem := length_filter_mem hwn hfn hsub
  have hfun : (fun w => !(decide (w ∈ free))) = (fun w => decide (w ∉ free)) := by
    funext w
    simp
  rw [hfun] at hsplit
  omega

theorem length_filterMap_of_isSome {α β : Type} (f : α → Option β) (l : List α) :
    (∀ a ∈ l, (f a).isSome) → (l.filterMap f).length = l.length := by
  induction l with
  | nil => intro _; rfl
  | cons a l ih =>
    intro h
    have ha := h a (List.mem_cons_self a l)
    cases hf : f a with
    | none => rw [hf] at ha; simp at ha
    | some b =>
      rw [List.filterMap_cons_some hf, List.length_cons, List.length_cons,
        ih (fun x hx => h x (List.mem_cons_of_mem a hx))]

/-! ### Event bookkeeping of `dispose` -/

theorem rejections_append (evs1 evs2 : List Event) :
    rejections (evs1 ++ evs2) = rejections evs1 ++ rejections evs2 :=
  List.filterMap_append _ _ _

theorem resolutions_append (evs1 evs2 : List Event) :
    resolutions (evs1 ++ evs2) = resolutions evs1 ++ resolutions evs2 :=
  List.filterMap_append _ _ _

theorem rejections_map_terminated (ws : List Nat) :
    rejections (ws.map Event.terminated) = [] := by
  induction ws with
  | nil => rfl
  | cons w ws ih => simp [rejections, List.filterMap_cons, ih]

theorem rejections_map_rejected (q : List Call) :
    rejections (q.map (fun c => Event.rejected c.id JSError.disposed))
      = q.map (fun c => (c.id, JSError.disposed)) := by
  induction q with
  | nil => rfl
  | cons c q ih => simpa [rejections, List.filterMap_cons] using ih

theorem rejections_busyEvents (hs : List (Nat × Nat)) (ws : List Nat) :
    rejections (busyEvents hs ws)
      = ws.filterMap (fun w => (hfind w hs).map (fun c => (c, JSError.disposed))) := by
  induction ws with
  | nil => rfl
  | cons w ws ih =>
    cases hf : hfind w hs with
    | some c => simp [busyEvents, rejections, List.filterMap_cons, hf, ← ih, rejections]
    | none => simp [busyEvents, rejections, List.filterMap_cons, hf, ← ih, rejections]

theorem resolutions_map_terminated (ws : List Nat) :
    resolutions (ws.map Event.terminated) = [] := by
  induction ws with
  | nil => rfl
  | cons w ws ih => simp [resolutions, List.filterMap_cons, ih]

theorem resolutions_map_rejected (q : List Call) :
    resolutions (q.map (fun c => Event.rejected c.id JSError.disposed)) = [] := by
  induction q with
  | nil => rfl
  | cons c q ih => simp [resolutions, List.filterMap_cons, ih]

theorem resolutions_busyEvents (hs : List (Nat × Nat)) (ws : List Nat) :
    resolutions (busyEvents hs ws) = [] := by
  induction ws with
  | nil => rfl
  | cons w ws ih =>
    cases hf : hfind w hs with
    | some c => simpa [busyEvents, resolutions, List.filterMap_cons, hf] using ih
    | none => simpa [busyEvents, resolutions, List.filterMap_cons, hf] using ih

theorem dispose_events_eq (s : PoolState) (h : Inv s) :
    (dispose s).2 =
      s.freeWorkers.map Event.terminated
        ++ s.queue.map (fun c => Event.rejected c.id JSError.disposed)
        ++ busyEvents s.handlers
            (s.workers.filter (fun w => decide (w ∉ s.freeWorkers))) := by
  have hnd : (s.workers.filter (fun w => decide (w ∉ s.freeWorkers))).Nodup :=
    h.workersNodup.filter _
  have hev := disposeBusy_events (s.workers.filter (fun w => decide (w ∉ s.freeWorkers)))
    { s with workers := s.workers.filter (fun w => decide (w ∉ s.freeWorkers)), queue := [] }
    rfl hnd
  show s.freeWorkers.map Event.terminated
      ++ s.queue.map (fun c => Event.rejected c.id JSError.disposed)
      ++ (disposeBusy _ _).2 = _
  rw [hev]

theorem busy_all_isSome {s : PoolState} (h : Inv s) :
    ∀ w ∈ s.workers.filter (fun w => decide (w ∉ s.freeWorkers)),
      (hfind w s.handlers).isSome := by
  intro w hw
  rcases List.mem_filter.1 hw with ⟨hww, hnf⟩
  have hnf2 : w ∉ s.freeWorkers := by simpa using hnf
  cases hfd : hfind w s.handlers with
  | some c => simp
  | none => exact absurd ((h.freeIff w hww).2 hfd) hnf2

theorem dispose_rejections_length {s : PoolState} (h : Inv s) :
    (rejections (dispose s).2).length
      = getWaitingEventCount s + getRunningWorkerCount s := by
  rw [dispose_events_eq s h, rejections_append, rejections_append,
    rejections_map_terminated, rejections_map_rejected, rejections_busyEvents]
  rw [List.nil_append, List.length_append, List.length_map]
  have hlen := length_filterMap_of_isSome
    (fun w => (hfind w s.handlers).map (fun c => (c, JSError.disposed)))
    (s.workers.filter (fun w => decide (w ∉ s.freeWorkers)))
    (fun w hw => by
      have hsome := busy_all_isSome h w hw
      cases hfd : hfind w s.handlers with
      | some c => simp [hfd]
      | none => rw [hfd] at hsome; simp at hsome)
  rw [hlen, length_filter_not_mem h.workersNodup h.freeNodup h.freeSub]
  rfl

theorem dispose_rejections_mem {s : PoolState} (h : Inv s) (c : Nat) :
    (c, JSError.disposed) ∈ rejections (dispose s).2 ↔ outstanding c s := by
  rw [dispose_events_eq s h, rejections_append, rejections_append,
    rejections_map_terminated, rejections_map_rejected, rejections_busyEvents,
    List.nil_append]
  rw [List.mem_append]
  constructor
  · intro hmem
    rcases hmem with hmem | hmem
    · rcases List.mem_map.1 hmem with ⟨q, hq, he⟩
      exact Or.inl ⟨q, hq, by simpa using congrArg Prod.fst he⟩
    · rcases List.mem_filterMap.1 hmem with ⟨w, _, hw2⟩
      rcases Option.map_eq_some'.1 hw2 with ⟨c', hc', he⟩
      refine Or.inr ⟨(w, c'), mem_of_hfind hc', ?_⟩
      simpa using congrArg Prod.fst he
  · intro hout
    rcases hout with ⟨q, hq, hqc⟩ | ⟨p, hp, hpc⟩
    · exact Or.inl (List.mem_map.2 ⟨q, hq, by rw [hqc]⟩)
    · refine Or.inr (List.mem_filterMap.2 ⟨p.1, ?_, ?_⟩)
      · have hww : p.1 ∈ s.workers := h.keysSub p hp
        have hfd : hfind p.1 s.handlers = some p.2 :=
          hfind_of_mem_keysNodup h.keysNodup (by simpa using hp)
        have hnf : p.1 ∉ s.freeWorkers := by
          intro hmem
          rw [(h.freeIff p.1 hww).1 hmem] at hfd
          simp at hfd
        exact List.mem_filter.2 ⟨hww, by simpa using hnf⟩
      · rw [hfind_of_mem_keysNodup h.keysNodup (by simpa using hp), Option.map_some',
          hpc]

theorem dispose_rejections_all_disposed {s : PoolState} (h : Inv s) :
    ∀ p ∈ rejections (dispose s).2, p.2 = JSError.disposed := by
  rw [dispose_events_eq s h, rejections_append, rejections_append,
    rejections_map_terminated, rejections_map_rejected, rejections_busyEvents,
    List.nil_append]
  intro p hp
  rcases List.mem_append.1 hp with hp | hp
  · rcases List.mem_map.1 hp with ⟨q, _, he⟩
    simpa using (congrArg Prod.snd he).symm
  · rcases List.mem_filterMap.1 hp with ⟨w, _, hw2⟩
    rcases Option.map_eq_some'.1 hw2 with ⟨c', _, he⟩
    simpa using (congrArg Prod.snd he).symm

theorem dispose_resolutions_nil {s : PoolState} (h : Inv s) :
    resolutions (dispose s).2 = [] := by
  rw [dispose_events_eq s h, resolutions_append, resolutions_append,
    resolutions_map_terminated, resolutions_map_rejected, resolutions_busyEvents]
  rfl

/-! ### The worker set is only touched by construction and `dispose` -/

theorem start_workers (c : Call) (s : PoolState) :
    (start c s).1.workers = s.workers := by
  cases hl : s.freeWorkers.getLast? with
  | some w => rw [start_eq_of_getLast c hl]
  | none => rw [start_eq_of_empty c (List.getLast?_eq_none_iff.1 hl)]

theorem onFinish_workers (w : Nat) (s : PoolState) :
    (onFinish w s).1.workers = s.workers := by
  cases hq : s.queue with
  | nil => rw [onFinish_eq_nil w hq]
  | cons c rest => rw [onFinish_eq_cons w hq]

theorem fireMessage_workers (w : Nat) (v : Int) (s : PoolState) :
    (fireMessage w v s).1.workers = s.workers := by
  cases hf : hfind w s.handlers with
  | some c =>
    simp only [fireMessage, hf]
    exact onFinish_workers w s
  | none => simp only [fireMessage, hf]

theorem fireError_workers (w : Nat) (err : JSError) (s : PoolState) :
    (fireError w err s).1.workers = s.workers := by
  cases hf : hfind w s.handlers with
  | some c =>
    simp only [fireError, hf]
    exact onFinish_workers w s
  | none => simp only [fireError, hf]

theorem runFrom_workers (ops : List Op) :
    ∀ (s : PoolState) (t : List Event), noDispose ops = true →
      (runFrom s t ops).1.workers = s.workers := by
  induction ops with
  | nil =>
    intro s t _
    rfl
  | cons op ops ih =>
    intro s t h
    rw [noDispose, List.all_cons, Bool.and_eq_true] at h
    have htail : noDispose ops = true := h.2
    have hstep : (step op s).1.workers = s.workers := by
      cases op with
      | dispatch args => exact start_workers _ _
      | msg w v => exact fireMessage_workers w v s
      | err w code => exact fireError_workers w (JSError.execError code) s
      | dispose => simp at h
    rw [runFrom, ih (step op s).1 (t ++ (step op s).2) htail, hstep]

/-! ### Trace-level bookkeeping: queue removals are in dispatch order -/

theorem dequeues_append (evs1 evs2 : List Event) :
    dequeues (evs1 ++ evs2) = dequeues evs1 ++ dequeues evs2 :=
  List.filterMap_append _ _ _

theorem dequeues_nil : dequeues [] = [] := rfl

theorem dequeues_cons_resolved (c : Nat) (v : Int) (l : List Event) :
    dequeues (Event.resolved c v :: l) = dequeues l := rfl

theorem dequeues_cons_rejected (c : Nat) (err : JSError) (l : List Event) :
    dequeues (Event.rejected c err :: l) = dequeues l := rfl

theorem dequeues_cons_posted (w c : Nat) (a : List Int) (l : List Event) :
    dequeues (Event.posted w c a :: l) = dequeues l := rfl

theorem dequeues_cons_terminated (w : Nat) (l : List Event) :
    dequeues (Event.terminated w :: l) = dequeues l := rfl

theorem dequeues_cons_dequeued (c : Nat) (l : List Event) :
    dequeues (Event.dequeued c :: l) = c :: dequeues l := rfl

theorem dequeues_map_terminated (ws : List Nat) :
    dequeues (ws.map Event.terminated) = [] := by
  induction ws with
  | nil => rfl
  | cons w ws ih => simp [dequeues, List.filterMap_cons, ih]

theorem dequeues_map_rejected (q : List Call) :
    dequeues (q.map (fun c => Event.rejected c.id JSError.disposed)) = [] := by
  induction q with
  | nil => rfl
  | cons c q ih => simp [dequeues, List.filterMap_cons, ih]

theorem dequeues_busyEvents (hs : List (Nat × Nat)) (ws : List Nat) :
    dequeues (busyEvents hs ws) = [] := by
  induction ws with
  | nil => rfl
  | cons w ws ih =>
    cases hf : hfind w hs with
    | some c =>
      rw [busyEvents, hf]
      rw [List.singleton_append, dequeues_cons_terminated, dequeues_cons_rejected, ih]
    | none =>
      rw [busyEvents, hf]
      rw [List.nil_append, dequeues_cons_terminated, ih]

theorem dequeues_start (c : Call) (s : PoolState) :
    dequeues (start c s).2 = [] := by
  cases hl : s.freeWorkers.getLast? with
  | some w =>
    rw [start_eq_of_getLast c hl]
    rfl
  | none =>
    rw [start_eq_of_empty c (List.getLast?_eq_none_iff.1 hl)]
    rfl

theorem dequeues_dispose (s : PoolState) :
    dequeues (dispose s).2 = [] := by
  have hshape : ∀ (ws : List Nat) (s' : PoolState), s'.queue = [] →
      dequeues (disposeBusy ws s').2 = [] := by
    intro ws
    induction ws with
    | nil =>
      intro s' _
      rfl
    | cons w ws ih =>
      intro s' hq
      cases hf : hfind w s'.handlers with
      | some c =>
        simp only [disposeBusy, fireError_eq_of_some JSError.disposed hq hf]
        have hr := ih { s' with handlers := hremove w s'.handlers,
                                freeWorkers := s'.freeWorkers ++ [w] } hq
        simp [dequeues, List.filterMap_cons, List.filterMap_append] at hr ⊢
        exact hr
      | none =>
        simp only [disposeBusy, fireError_eq_of_none JSError.disposed hf]
        have hr := ih s' hq
        simp [dequeues, List.filterMap_cons] at hr ⊢
        exact hr
  show dequeues (_ ++ _ ++ (disposeBusy _ _).2) = []
  rw [dequeues_append, dequeues_append, dequeues_map_terminated,
    dequeues_map_rejected, hshape _ _ rfl]
  rfl

theorem traceInv_step {s : PoolState} {t : List Event} (h : TraceInv s t) (op : Op) :
    TraceInv (step op s).1 (t ++ (step op s).2) := by
  have hinv := inv_step h.inv op
  cases op with
  | dispatch args =>
    have hdeq : dequeues (t ++ (step (Op.dispatch args) s).2) = dequeues t := by
      rw [dequeues_append]
      show dequeues t ++ dequeues (dispatch args s).2 = dequeues t
      rw [dispatch, dequeues_start]
      simp
    refine ⟨hinv, by rw [hdeq]; exact h.deqSorted, ?_, ?_⟩
    · rw [hdeq]
      intro d hd c hc
      show _ < c.id
      cases hl : s.freeWorkers.getLast? with
      | some w =>
        have : (step (Op.dispatch args) s).1.queue = s.queue := by
          show (dispatch args s).1.queue = s.queue
          rw [dispatch, start_eq_of_getLast _ (by simpa using hl)]
        rw [this] at hc
        exact h.deqQueue d hd c hc
      | none =>
        have hfe : s.freeWorkers = [] := List.getLast?_eq_none_iff.1 hl
        have : (step (Op.dispatch args) s).1.queue
            = s.queue ++ [⟨s.nextCall, args⟩] := by
          show (dispatch args s).1.queue = _
          rw [dispatch, start_eq_of_empty _ (by simpa using hfe)]
        rw [this] at hc
        rcases List.mem_append.1 hc with hc | hc
        · exact h.deqQueue d hd c hc
        · simp only [List.mem_singleton] at hc
          rw [hc]
          exact h.deqLt d hd
    · rw [hdeq]
      intro d hd
      have hnc : (step (Op.dispatch args) s).1.nextCall = s.nextCall + 1 := by
        show (dispatch args s).1.nextCall = _
        cases hl : s.freeWorkers.getLast? with
        | some w => rw [dispatch, start_eq_of_getLast _ (by simpa using hl)]
        | none =>
          rw [dispatch,
            start_eq_of_empty _ (by simpa using List.getLast?_eq_none_iff.1 hl)]
      rw [hnc]
      exact Nat.lt_succ_of_lt (h.deqLt d hd)
  | msg w v =>
    cases hf : hfind w s.handlers with
    | none =>
      have hstep : step (Op.msg w v) s = (s, []) := by
        show fireMessage w v s = _
        simp only [fireMessage, hf]
      rw [hstep]
      exact ⟨by simpa [hstep] using hinv, by simpa using h.deqSorted,
        by simpa using h.deqQueue, by simpa using h.deqLt⟩
    | some c =>
      cases hq : s.queue with
      | nil =>
        have hstep : step (Op.msg w v) s =
            ({ s with handlers := hremove w s.handlers,
                      freeWorkers := s.freeWorkers ++ [w] },
              [Event.resolved c v]) := by
          show fireMessage w v s = _
          simp only [fireMessage, hf, onFinish_eq_nil w hq, List.nil_append]
        rw [hstep] at hinv ⊢
        have hdeq : dequeues (t ++ [Event.resolved c v]) = dequeues t := by
          rw [dequeues_append, dequeues_cons_resolved, dequeues_nil, List.append_nil]
        refine ⟨hinv, by rw [hdeq]; exact h.deqSorted, ?_, by rw [hdeq]; exact h.deqLt⟩
        rw [hdeq]
        intro d hd q hcq
        rw [hq] at hcq
        simp at hcq
      | cons q rest =>
        have hstep : step (Op.msg w v) s =
            ({ s with handlers := (w, q.id) :: hremove w s.handlers,
                      freeWorkers := s.freeWorkers, queue := rest },
              [Event.dequeued q.id, Event.posted w q.id q.args,
                Event.resolved c v]) := by
          show fireMessage w v s = _
          simp only [fireMessage, hf, onFinish_eq_cons w hq, List.cons_append,
            List.nil_append]
        rw [hstep] at hinv ⊢
        have hdeq : dequeues (t ++ [Event.dequeued q.id, Event.posted w q.id q.args,
            Event.resolved c v]) = dequeues t ++ [q.id] := by
          rw [dequeues_append, dequeues_cons_dequeued, dequeues_cons_posted,
            dequeues_cons_resolved, dequeues_nil]
        have hqmem : q ∈ s.queue := by
          rw [hq]
          exact List.mem_cons_self q rest
        refine ⟨hinv, ?_, ?_, ?_⟩
        · rw [hdeq, List.pairwise_append]
          refine ⟨h.deqSorted, List.pairwise_singleton _ _, ?_⟩
          intro d hd b hb
          simp only [List.mem_singleton] at hb
          rw [hb]
          exact h.deqQueue d hd q hqmem
        · rw [hdeq]
          intro d hd c' hc'
          rcases List.mem_append.1 hd with hd | hd
          · exact h.deqQueue d hd c' (hq ▸ List.mem_cons_of_mem q hc')
          · simp only [List.mem_singleton] at hd
            rw [hd]
            have hsorted := h.inv.queueSorted
            rw [hq, List.map_cons, List.pairwise_cons] at hsorted
            exact hsorted.1 c'.id (List.mem_map.2 ⟨c', hc', rfl⟩)
        · rw [hdeq]
          intro d hd
          rcases List.mem_append.1 hd with hd | hd
          · exact h.deqLt d hd
          · simp only [List.mem_singleton] at hd
            rw [hd]
            exact h.inv.queueLt q hqmem
  | err w code =>
    cases hf : hfind w s.handlers with
    | none =>
      have hstep : step (Op.err w code) s = (s, []) := by
        show fireError w (JSError.execError code) s = _
        simp only [fireError, hf]
      rw [hstep]
      exact ⟨by simpa [hstep] using hinv, by simpa using h.deqSorted,
        by simpa using h.deqQueue, by simpa using h.deqLt⟩
    | some c =>
      cases hq : s.queue with
      | nil =>
        have hstep : step (Op.err w code) s =
            ({ s with handlers := hremove w s.handlers,
                      freeWorkers := s.freeWorkers ++ [w] },
              [Event.rejected c (JSError.execError code)]) := by
          show fireError w (JSError.execError code) s = _
          simp only [fireError, hf, onFinish_eq_nil w hq, List.nil_append]
        rw [hstep] at hinv ⊢
        have hdeq : dequeues (t ++ [Event.rejected c (JSError.execError code)])
            = dequeues t := by
          rw [dequeues_append, dequeues_cons_rejected, dequeues_nil, List.append_nil]
        refine ⟨hinv, by rw [hdeq]; exact h.deqSorted, ?_, by rw [hdeq]; exact h.deqLt⟩
        rw [hdeq]
        intro d hd q hcq
        rw [hq] at hcq
        simp at hcq
      | cons q rest =>
        have hstep : step (Op.err w code) s =
            ({ s with handlers := (w, q.id) :: hremove w s.handlers,
                      freeWorkers := s.freeWorkers, queue := rest },
              [Event.dequeued q.id, Event.posted w q.id q.args,
                Event.rejected c (JSError.execError code)]) := by
          show fireError w (JSError.execError code) s = _
          simp only [fireError, hf, onFinish_eq_cons w hq, List.cons_append,
            List.nil_append]
        rw [hstep] at hinv ⊢
        have hdeq : dequeues (t ++ [Event.dequeued q.id, Event.posted w q.id q.args,
            Event.rejected c (JSError.execError code)]) = dequeues t ++ [q.id] := by
          rw [dequeues_append, dequeues_cons_dequeued, dequeues_cons_posted,
            dequeues_cons_rejected, dequeues_nil]
        have hqmem : q ∈ s.queue := by
          rw [hq]
          exact List.mem_cons_self q rest
        refine ⟨hinv, ?_, ?_, ?_⟩
        · rw [hdeq, List.pairwise_append]
          refine ⟨h.deqSorted, List.pairwise_singleton _ _, ?_⟩
          intro d hd b hb
          simp only [List.mem_singleton] at hb
          rw [hb]
          exact h.deqQueue d hd q hqmem
        · rw [hdeq]
          intro d hd c' hc'
          rcases List.mem_append.1 hd with hd | hd
          · exact h.deqQueue d hd c' (hq ▸ List.mem_cons_of_mem q hc')
          · simp only [List.mem_singleton] at hd
            rw [hd]
            have hsorted := h.inv.queueSorted
            rw [hq, List.map_cons, List.pairwise_cons] at hsorted
            exact hsorted.1 c'.id (List.mem_map.2 ⟨c', hc', rfl⟩)
        · rw [hdeq]
          intro d hd
          rcases List.mem_append.1 hd with hd | hd
          · exact h.deqLt d hd
          · simp only [List.mem_singleton] at hd
            rw [hd]
            exact h.inv.queueLt q hqmem
  | dispose =>
    have hdeq : dequeues (t ++ (step Op.dispose s).2) = dequeues t := by
      rw [dequeues_append]
      show dequeues t ++ dequeues (dispose s).2 = dequeues t
      rw [dequeues_dispose]
      simp
    obtain ⟨hq, _, _, hnc⟩ := dispose_components s
    refine ⟨hinv, by rw [hdeq]; exact h.deqSorted, ?_, ?_⟩
    · rw [hdeq]
      intro d hd q hcq
      have hcq2 : q ∈ (dispose s).1.queue := hcq
      rw [hq] at hcq2
      simp at hcq2
    · rw [hdeq]
      intro d hd
      have hnc2 : (step Op.dispose s).1.nextCall = s.nextCall := hnc
      rw [hnc2]
      exact h.deqLt d hd

theorem traceInv_runFrom {s : PoolState} {t : List Event} (h : TraceInv s t)
    (ops : List Op) : TraceInv (runFrom s t ops).1 (runFrom s t ops).2 := by
  induction ops generalizing s t with
  | nil => exact h
  | cons op ops ih => exact ih (traceInv_step h op)

theorem traceInv_run (n : Nat) (ops : List Op) :
    TraceInv (run n ops).1 (run n ops).2 := by
  refine traceInv_runFrom ⟨inv_initState n, ?_, ?_, ?_⟩ ops
  · exact List.Pairwise.nil
  · intro d hd
    simp [dequeues] at hd
  · intro d hd
    simp [dequeues] at hd

/-! ### Restarting a disposed pool is a no-op -/

theorem runFrom_append (s : PoolState) (t : List Event) (ops1 ops2 : List Op) :
    runFrom s t (ops1 ++ ops2)
      = runFrom (runFrom s t ops1).1 (runFrom s t ops1).2 ops2 := by
  induction ops1 generalizing s t with
  | nil => rfl
  | cons op ops1 ih =>
    rw [List.cons_append, runFrom, runFrom, ih]

theorem dispose_eq_of_empty {s : PoolState} (hw : s.workers = [])
    (hf : s.freeWorkers = []) (hq : s.queue = []) : dispose s = (s, []) := by
  obtain ⟨queue, freeWorkers, workers, handlers, nextCall⟩ := s
  simp only at hw hf hq
  subst hw
  subst hf
  subst hq
  rfl

/-! ### Unique future ids -/

theorem hremove_sublist (w : Nat) (l : List (Nat × Nat)) :
    (hremove w l).Sublist l := by
  induction l with
  | nil => exact List.Sublist.refl _
  | cons p l ih =>
    by_cases hp : p.1 = w
    · rw [hremove, if_pos hp]
      exact ih.cons p
    · rw [hremove, if_neg hp]
      exact ih.cons₂ p

theorem fireError_eq_of_some_cons {s : PoolState} {w c : Nat} {q : Call}
    {rest : List Call} (err : JSError)
    (hq : s.queue = q :: rest) (hf : hfind w s.handlers = some c) :
    fireError w err s =
      ({ s with handlers := (w, q.id) :: hremove w s.handlers, queue := rest },
        [Event.dequeued q.id, Event.posted w q.id q.args, Event.rejected c err]) := by
  simp only [fireError, hf, onFinish_eq_cons w hq, List.cons_append, List.nil_append]

theorem fireMessage_eq_of_some_cons {s : PoolState} {w c : Nat} {q : Call}
    {rest : List Call} (v : Int)
    (hq : s.queue = q :: rest) (hf : hfind w s.handlers = some c) :
    fireMessage w v s =
      ({ s with handlers := (w, q.id) :: hremove w s.handlers, queue := rest },
        [Event.dequeued q.id, Event.posted w q.id q.args, Event.resolved c v]) := by
  simp only [fireMessage, hf, onFinish_eq_cons w hq, List.cons_append, List.nil_append]

theorem fireMessage_eq_of_some_nil {s : PoolState} {w c : Nat} (v : Int)
    (hq : s.queue = []) (hf : hfind w s.handlers = some c) :
    fireMessage w v s =
      ({ s with handlers := hremove w s.handlers,
                freeWorkers := s.freeWorkers ++ [w] },
        [Event.resolved c v]) := by
  simp only [fireMessage, hf, onFinish_eq_nil w hq, List.nil_append]

theorem idsInv_step {s : PoolState} (hinv : Inv s) (hids : IdsInv s) (op : Op) :
    IdsInv (step op s).1 := by
  have hfresh : ∀ x ∈ s.queue.map Call.id ++ s.handlers.map Prod.snd,
      x < s.nextCall := by
    intro x hx
    rcases List.mem_append.1 hx with hx | hx
    · rcases List.mem_map.1 hx with ⟨q, hq, rfl⟩
      exact hinv.queueLt q hq
    · rcases List.mem_map.1 hx with ⟨p, hp, rfl⟩
      exact hids.handlerLt p hp
  have hsubrem : ∀ w : Nat,
      (s.queue.map Call.id ++ (hremove w s.handlers).map Prod.snd).Sublist
        (s.queue.map Call.id ++ s.handlers.map Prod.snd) :=
    fun w => List.Sublist.append_left ((hremove_sublist w s.handlers).map Prod.snd) _
  cases op with
  | dispatch args =>
    show IdsInv (dispatch args s).1
    cases hl : s.freeWorkers.getLast? with
    | some w =>
      have hl2 : (PoolState.freeWorkers
          { s with nextCall := s.nextCall + 1 }).getLast? = some w := hl
      rw [dispatch, start_eq_of_getLast _ hl2]
      constructor
      · show (s.queue.map Call.id
            ++ ((w, s.nextCall) :: hremove w s.handlers).map Prod.snd).Nodup
        rw [List.map_cons]
        refine (List.perm_middle.nodup_iff).2 (List.nodup_cons.2 ⟨?_, ?_⟩)
        · intro hmem
          exact absurd (hfresh _ ((hsubrem w).subset hmem)) (by omega)
        · exact (hsubrem w).nodup hids.idsNodup
      · intro p hp
        rcases List.mem_cons.1 hp with hp | hp
        · rw [hp]
          exact Nat.lt_succ_self _
        · exact Nat.lt_succ_of_lt
            (hids.handlerLt p ((hremove_sublist w s.handlers).subset hp))
    | none =>
      have hfe : s.freeWorkers = [] := List.getLast?_eq_none_iff.1 hl
      have hfe2 : PoolState.freeWorkers { s with nextCall := s.nextCall + 1 } = [] :=
        hfe
      rw [dispatch, start_eq_of_empty _ hfe2]
      constructor
      · show ((s.queue ++ [({ id := s.nextCall, args := args } : Call)]).map Call.id
            ++ s.handlers.map Prod.snd).Nodup
        rw [List.map_append, List.map_cons, List.map_nil, List.append_assoc,
          List.singleton_append]
        refine (List.perm_middle.nodup_iff).2 (List.nodup_cons.2 ⟨?_, ?_⟩)
        · intro hmem
          exact absurd (hfresh _ hmem) (by simp)
        · exact hids.idsNodup
      · intro p hp
        exact Nat.lt_succ_of_lt (hids.handlerLt p hp)
  | msg w v =>
    cases hf : hfind w s.handlers with
    | none =>
      have hstep : step (Op.msg w v) s = (s, []) := by
        show fireMessage w v s = _
        simp only [fireMessage, hf]
      rw [hstep]
      exact hids
    | some c =>
      cases hq : s.queue with
      | nil =>
        show IdsInv (fireMessage w v s).1
        rw [fireMessage_eq_of_some_nil v hq hf]
        exact ⟨(hsubrem w).nodup hids.idsNodup,
          fun p hp => hids.handlerLt p ((hremove_sublist w s.handlers).subset hp)⟩
      | cons q rest =>
        show IdsInv (fireMessage w v s).1
        rw [fireMessage_eq_of_some_cons v hq hf]
        have hold := hids.idsNodup
        rw [hq, List.map_cons, List.cons_append, List.nodup_cons] at hold
        have hsub2 : (rest.map Call.id ++ (hremove w s.handlers).map Prod.snd).Sublist
            (rest.map Call.id ++ s.handlers.map Prod.snd) :=
          List.Sublist.append_left ((hremove_sublist w s.handlers).map Prod.snd) _
        constructor
        · show (rest.map Call.id
              ++ ((w, q.id) :: hremove w s.handlers).map Prod.snd).Nodup
          rw [List.map_cons]
          refine (List.perm_middle.nodup_iff).2 (List.nodup_cons.2 ⟨?_, ?_⟩)
          · intro hmem
            exact hold.1 (hsub2.subset hmem)
          · exact hsub2.nodup hold.2
        · intro p hp
          rcases List.mem_cons.1 hp with hp | hp
          · rw [hp]
            exact hinv.queueLt q (hq ▸ List.mem_cons_self q rest)
          · exact hids.handlerLt p ((hremove_sublist w s.handlers).subset hp)
  | err w code =>
    cases hf : hfind w s.handlers with
    | none =>
      have hstep : step (Op.err w code) s = (s, []) := by
        show fireError w (JSError.execError code) s = _
        simp only [fireError, hf]
      rw [hstep]
      exact hids
    | some c =>
      cases hq : s.queue with
      | nil =>
        show IdsInv (fireError w (JSError.execError code) s).1
        rw [fireError_eq_of_some (JSError.execError code) hq hf]
        exact ⟨(hsubrem w).nodup hids.idsNodup,
          fun p hp => hids.handlerLt p ((hremove_sublist w s.handlers).subset hp)⟩
      | cons q rest =>
        show IdsInv (fireError w (JSError.execError code) s).1
        rw [fireError_eq_of_some_cons (JSError.execError code) hq hf]
        have hold := hids.idsNodup
        rw [hq, List.map_cons, List.cons_append, List.nodup_cons] at hold
        have hsub2 : (rest.map Call.id ++ (hremove w s.handlers).map Prod.snd).Sublist
            (rest.map Call.id ++ s.handlers.map Prod.snd) :=
          List.Sublist.append_left ((hremove_sublist w s.handlers).map Prod.snd) _
        constructor
        · show (rest.map Call.id
              ++ ((w, q.id) :: hremove w s.handlers).map Prod.snd).Nodup
          rw [List.map_cons]
          refine (List.perm_middle.nodup_iff).2 (List.nodup_cons.2 ⟨?_, ?_⟩)
          · intro hmem
            exact hold.1 (hsub2.subset hmem)
          · exact hsub2.nodup hold.2
        · intro p hp
          rcases List.mem_cons.1 hp with hp | hp
          · rw [hp]
            exact hinv.queueLt q (hq ▸ List.mem_cons_self q rest)
          · exact hids.handlerLt p ((hremove_sublist w s.handlers).subset hp)
  | dispose =>
    show IdsInv (dispose s).1
    obtain ⟨hq, _, _, _⟩ := dispose_components s
    have hh := dispose_handlers_nil hinv
    constructor
    · rw [hq, hh]
      simp
    · intro p hp
      rw [hh] at hp
      simp at hp

theorem inv_and_idsInv_runFrom {s : PoolState} (h : Inv s) (hids : IdsInv s)
    (t : List Event) (ops : List Op) :
    Inv (runFrom s t ops).1 ∧ IdsInv (runFrom s t ops).1 := by
  induction ops generalizing s t with
  | nil => exact ⟨h, hids⟩
  | cons op ops ih => exact ih (inv_step h op) (idsInv_step h hids op) _

theorem idsInv_run (n : Nat) (ops : List Op) : IdsInv (run n ops).1 :=
  (inv_and_idsInv_runFrom (inv_initState n)
    ⟨by simp [initState], by intro p hp; simp [initState] at hp⟩ [] ops).2

theorem filterMap_hfind_nodup {hs : List (Nat × Nat)} {ws : List Nat}
    (hwnd : ws.Nodup) (hvnd : (hs.map Prod.snd).Nodup) :
    (ws.filterMap (fun w => hfind w hs)).Nodup := by
  induction ws with
  | nil => simp
  | cons w ws ih =>
    rw [List.nodup_cons] at hwnd
    cases hf : hfind w hs with
    | none =>
      simp only [List.filterMap_cons, hf]
      exact ih hwnd.2
    | some c =>
      simp only [List.filterMap_cons, hf, List.nodup_cons]
      refine ⟨?_, ih hwnd.2⟩
      intro hmem
      rcases List.mem_filterMap.1 hmem with ⟨w1, hw1, hf1⟩
      have hww : w1 ≠ w := fun he => hwnd.1 (he ▸ hw1)
      have h1 : (w, c) ∈ hs := mem_of_hfind hf
      have h2 : (w1, c) ∈ hs := mem_of_hfind hf1
      have heq := List.inj_on_of_nodup_map hvnd h1 h2 rfl
      exact hww (congrArg Prod.fst heq).symm

theorem map_fst_filterMap_hfind (hs : List (Nat × Nat)) (ws : List Nat) :
    (ws.filterMap (fun w => (hfind w hs).map
        (fun c => (c, JSError.disposed)))).map Prod.fst
      = ws.filterMap (fun w => hfind w hs) := by
  induction ws with
  | nil => rfl
  | cons w ws ih =>
    cases hf : hfind w hs with
    | none => simp [List.filterMap_cons, hf, ih]
    | some c => simp [List.filterMap_cons, hf, ih]

theorem dispose_rejections_ids_nodup {s : PoolState} (h : Inv s)
    (hids : IdsInv s) :
    ((rejections (dispose s).2).map Prod.fst).Nodup := by
  rw [dispose_events_eq s h, rejections_append, rejections_append,
    rejections_map_terminated, rejections_map_rejected, rejections_busyEvents,
    List.nil_append, List.map_append, map_fst_filterMap_hfind]
  have hqids : ((s.queue.map (fun c => (c.id, JSError.disposed))).map Prod.fst)
      = s.queue.map Call.id := by
    rw [List.map_map]
    rfl
  rw [hqids]
  have hnd := hids.idsNodup
  rw [List.nodup_append] at hnd ⊢
  refine ⟨hnd.1, ?_, ?_⟩
  · exact filterMap_hfind_nodup (h.workersNodup.filter _) hnd.2.1
  · intro x hx hmem
    rcases List.mem_filterMap.1 hmem with ⟨w, _, hf⟩
    have hxv : x ∈ s.handlers.map Prod.snd :=
      List.mem_map.2 ⟨(w, x), mem_of_hfind hf, rfl⟩
    exact hnd.2.2 hx hxv

/-! ## The claims -/

/-- Claim C1: for every reachable pool state with M calls waiting in the
pending queue and K calls in flight on busy workers, `dispose()` emits
exactly M + K rejection events, all carrying the disposed-pool error; a call
id is rejected exactly when its future was outstanding (queued or in flight);
the rejected ids are pairwise distinct (so M + K distinct futures settle); no
future is resolved; and afterwards `getFreeWorkerCount`,
`getRunningWorkerCount` and `getWaitingEventCount` all read 0. -/
theorem dispose_rejects_all_outstanding (n : Nat) (ops : List Op) :
    (rejections (dispose (run n ops).1).2).length
        = getWaitingEventCount (run n ops).1 + getRunningWorkerCount (run n ops).1 ∧
    (∀ c : Nat, (c, JSError.disposed) ∈ rejections (dispose (run n ops).1).2 ↔
        outstanding c (run n ops).1) ∧
    (∀ p ∈ rejections (dispose (run n ops).1).2, p.2 = JSError.disposed) ∧
    resolutions (dispose (run n ops).1).2 = [] ∧
    ((rejections (dispose (run n ops).1).2).map Prod.fst).Nodup ∧
    getFreeWorkerCount (dispose (run n ops).1).1 = 0 ∧
    getRunningWorkerCount (dispose (run n ops).1).1 = 0 ∧
    getWaitingEventCount (dispose (run n ops).1).1 = 0 := by
  have h := inv_run n ops
  obtain ⟨hq, hf, hw, _⟩ := dispose_components (run n ops).1
  refine ⟨dispose_rejections_length h, dispose_rejections_mem h,
    dispose_rejections_all_disposed h, dispose_resolutions_nil h,
    dispose_rejections_ids_nodup h (idsInv_run n ops), ?_, ?_, ?_⟩
  · rw [getFreeWorkerCount, hf]
    rfl
  · rw [getRunningWorkerCount, hw, hf]
    rfl
  · rw [getWaitingEventCount, hq]
    rfl

/-- Claim C2: queued calls are serviced in strict FIFO order — the ids removed from
the queue head form a strictly increasing sequence in every trace (ids are
minted in dispatch order) — while free workers are reused LIFO: after worker
`w` finishes with nothing queued, the very next dispatch is posted to `w`,
the most recently freed worker. -/
theorem queued_fifo_and_worker_reuse_lifo :
    (∀ (n : Nat) (ops : List Op), (dequeues (run n ops).2).Pairwise (· < ·)) ∧
    (∀ (s : PoolState) (w : Nat) (v : Int) (c : Nat) (args : List Int),
      hfind w s.handlers = some c → s.queue = [] →
      (dispatch args (fireMessage w v s).1).2
        = [Event.posted w s.nextCall args]) := by
  constructor
  · intro n ops
    exact (traceInv_run n ops).deqSorted
  · intro s w v c args hf hq
    have hfm : (fireMessage w v s).1 =
        { s with handlers := hremove w s.handlers,
                 freeWorkers := s.freeWorkers ++ [w] } := by
      simp only [fireMessage, hf, onFinish_eq_nil w hq]
    rw [hfm, dispatch, start_eq_of_getLast _ (List.getLast?_concat _)]

/-- Witness for C2 at a concrete two-worker pool. -/
theorem queued_fifo_and_worker_reuse_lifo_witness :
    hfind 1 (run 2 [Op.dispatch [1]]).1.handlers = some 0 ∧
    (run 2 [Op.dispatch [1]]).1.queue = [] ∧
    (dispatch [2] (fireMessage 1 7 (run 2 [Op.dispatch [1]]).1).1).2
      = [Event.posted 1 (run 2 [Op.dispatch [1]]).1.nextCall [2]] :=
  ⟨by decide, by decide,
    queued_fifo_and_worker_reuse_lifo.2 (run 2 [Op.dispatch [1]]).1 1 7 0 [2]
      (by decide) (by decide)⟩

/-- Claim C3: in every state reachable by dispatches and worker completions alone
(no dispose), a non-empty pending queue forces an empty free-worker list:
`getWaitingEventCount > 0` implies `getFreeWorkerCount = 0`. -/
theorem pending_implies_no_free_worker (n : Nat) (ops : List Op)
    (_hnd : noDispose ops = true)
    (hq : 0 < getWaitingEventCount (run n ops).1) :
    getFreeWorkerCount (run n ops).1 = 0 := by
  have hinv := inv_run n ops
  have hne : (run n ops).1.queue ≠ [] := by
    intro he
    rw [getWaitingEventCount, he] at hq
    simp at hq
  rw [getFreeWorkerCount, hinv.queueFree hne]
  rfl

/-- Witness for C3 at a concrete one-worker pool with one queued call. -/
theorem pending_implies_no_free_worker_witness :
    noDispose [Op.dispatch [1], Op.dispatch [2]] = true ∧
    0 < getWaitingEventCount (run 1 [Op.dispatch [1], Op.dispatch [2]]).1 ∧
    getFreeWorkerCount (run 1 [Op.dispatch [1], Op.dispatch [2]]).1 = 0 :=
  ⟨by decide, by decide,
    pending_implies_no_free_worker 1 [Op.dispatch [1], Op.dispatch [2]]
      (by decide) (by decide)⟩

/-- Claim C4: for a pool of `n` workers, in every state reachable before any
`dispose` (the fresh pool included), the free and running gauges sum to `n`. -/
theorem free_plus_running_eq_size (n : Nat) (ops : List Op)
    (hnd : noDispose ops = true) :
    getFreeWorkerCount (run n ops).1 + getRunningWorkerCount (run n ops).1 = n := by
  have hinv := inv_run n ops
  have hw : (run n ops).1.workers.length = n := by
    rw [run, runFrom_workers ops (initState n) [] hnd]
    simp [initState]
  have hle : (run n ops).1.freeWorkers.length ≤ (run n ops).1.workers.length :=
    (List.subperm_of_subset hinv.freeNodup
      (fun x hx => hinv.freeSub x hx)).length_le
  rw [getFreeWorkerCount, getRunningWorkerCount]
  omega

/-- Witness for C4 at a concrete two-worker pool with one running call. -/
theorem free_plus_running_eq_size_witness :
    noDispose [Op.dispatch [1]] = true ∧
    getFreeWorkerCount (run 2 [Op.dispatch [1]]).1
      + getRunningWorkerCount (run 2 [Op.dispatch [1]]).1 = 2 :=
  ⟨by decide, free_plus_running_eq_size 2 [Op.dispatch [1]] (by decide)⟩

/-- Claim C5, counterexample: `3/2` is not a positive integer, yet the constructor
accepts it — `size < 1` is the only check — and creates a pool of one worker,
refuting "fails if and only if size is not a positive integer". -/
theorem construct_accepts_non_integer_size :
    ¬ isPosInt ((3 : ℚ) / 2) ∧ construct ((3 : ℚ) / 2) = Except.ok (initState 1) := by
  constructor
  · intro hpi
    have hd : ((3 : ℚ) / 2).den = 1 := hpi.1
    norm_num at hd
  · rw [construct, if_neg (by norm_num)]
    have hfl : (Rat.floor ((3 : ℚ) / 2)).toNat = 1 := by
      rw [Rat.floor_def']
      norm_num
    rw [hfl]

/-- Claim C5, amended: the constructor fails synchronously — returning a
`RangeError` and creating no pool, hence no workers — if and only if
`size < 1`; in particular `size = 0` and `size = -1` fail before any worker
exists, while any `size ≥ 1` (integer or not) is accepted. -/
theorem construct_fails_iff_size_lt_one (size : ℚ) :
    (construct size = Except.error "size must greater than 0" ↔ size < 1) ∧
    (¬ size < 1 → construct size = Except.ok (initState (Rat.floor size).toNat)) ∧
    construct (0 : ℚ) = Except.error "size must greater than 0" ∧
    construct (-1 : ℚ) = Except.error "size must greater than 0" := by
  refine ⟨⟨?_, ?_⟩, ?_, ?_, ?_⟩
  · intro h
    by_contra hlt
    rw [construct, if_neg hlt] at h
    exact Except.noConfusion h
  · intro h
    rw [construct, if_pos h]
  · intro h
    rw [construct, if_neg h]
  · rw [construct, if_pos (by norm_num)]
  · rw [construct, if_pos (by norm_num)]

/-- Witness for the amended C5 at the accepted size 5. -/
theorem construct_fails_iff_size_lt_one_witness :
    ((5 : ℚ) < 1 ∨ ¬ (5 : ℚ) < 1) ∧
    (¬ (5 : ℚ) < 1 →
      construct (5 : ℚ) = Except.ok (initState (Rat.floor (5 : ℚ)).toNat)) :=
  ⟨Or.inr (by norm_num), (construct_fails_iff_size_lt_one 5).2.1⟩

/-- Claim C6: when worker `w`'s execution of call `c` fails with an error,
exactly one settlement takes place — call `c`'s future is rejected with that
very error and no future is resolved; the free+running worker total is
conserved (gauges stay consistent); and the pool keeps servicing: with an
empty queue the worker lands in the free list, and with a non-empty queue
the queue head is immediately re-assigned to that worker (its transient pass
through the free list is popped right back). -/
theorem worker_error_rejects_only_that_call (n : Nat) (ops : List Op)
    (w code c : Nat) (hf : hfind w (run n ops).1.handlers = some c) :
    rejections (fireError w (JSError.execError code) (run n ops).1).2
      = [(c, JSError.execError code)] ∧
    resolutions (fireError w (JSError.execError code) (run n ops).1).2 = [] ∧
    getFreeWorkerCount (fireError w (JSError.execError code) (run n ops).1).1
        + getRunningWorkerCount (fireError w (JSError.execError code) (run n ops).1).1
      = getFreeWorkerCount (run n ops).1 + getRunningWorkerCount (run n ops).1 ∧
    ((run n ops).1.queue = [] →
      w ∈ (fireError w (JSError.execError code) (run n ops).1).1.freeWorkers) ∧
    (∀ (q : Call) (rest : List Call), (run n ops).1.queue = q :: rest →
      hfind w (fireError w (JSError.execError code) (run n ops).1).1.handlers
          = some q.id ∧
      (fireError w (JSError.execError code) (run n ops).1).1.queue = rest) := by
  have hinv := inv_run n ops
  have hww : w ∈ (run n ops).1.workers := hinv.keysSub _ (mem_of_hfind hf)
  have hnf : w ∉ (run n ops).1.freeWorkers := by
    intro hmem
    rw [(hinv.freeIff w hww).1 hmem] at hf
    exact Option.noConfusion hf
  cases hq : (run n ops).1.queue with
  | nil =>
    rw [fireError_eq_of_some (JSError.execError code) hq hf]
    have hlen : (run n ops).1.freeWorkers.length + 1
        ≤ (run n ops).1.workers.length := by
      have hsub : ((run n ops).1.freeWorkers ++ [w]).Subperm
          (run n ops).1.workers := by
        refine List.subperm_of_subset ?_ ?_
        · rw [List.nodup_append]
          exact ⟨hinv.freeNodup, List.nodup_singleton w,
            fun x hx hxw => hnf ((List.mem_singleton.1 hxw) ▸ hx)⟩
        · intro x hx
          rcases List.mem_append.1 hx with hx | hx
          · exact hinv.freeSub x hx
          · simp only [List.mem_singleton] at hx
            exact hx ▸ hww
      have hl := hsub.length_le
      simpa using hl
    refine ⟨rfl, rfl, ?_, ?_, ?_⟩
    · simp only [getFreeWorkerCount, getRunningWorkerCount, List.length_append,
        List.length_singleton]
      omega
    · intro _
      exact List.mem_append.2 (Or.inr (List.mem_singleton_self w))
    · intro q rest he
      exact List.noConfusion he
  | cons q rest =>
    rw [fireError_eq_of_some_cons (JSError.execError code) hq hf]
    refine ⟨rfl, rfl, rfl, ?_, ?_⟩
    · intro he
      exact List.noConfusion he
    · intro q' rest' he
      injection he with h1 h2
      subst h1
      subst h2
      constructor
      · rw [hfind, if_pos rfl]
      · rfl

/-- Witness for C6: the single busy worker of a one-worker pool fails. -/
theorem worker_error_rejects_only_that_call_witness :
    hfind 0 (run 1 [Op.dispatch [1]]).1.handlers = some 0 ∧
    rejections (fireError 0 (JSError.execError 7) (run 1 [Op.dispatch [1]]).1).2
      = [(0, JSError.execError 7)] :=
  ⟨by decide,
    (worker_error_rejects_only_that_call 1 [Op.dispatch [1]] 0 7 0 (by decide)).1⟩

/-- Claim C7: when a worker settles (success or error) while the pending
queue is non-empty, the controller detaches its handlers, removes the oldest
pending call from the queue head and re-attaches it to that same worker —
the emitted trace shows `dequeued` then `posted` to the same worker id
strictly before the completed call's `resolved`/`rejected` settlement — and
the free-worker list is left exactly as it was (the push of the freed worker
is immediately popped, so no other worker can take the call). -/
theorem settling_worker_services_queue_head_first (s : PoolState) (w c : Nat)
    (q : Call) (rest : List Call) (v : Int) (code : Nat)
    (hf : hfind w s.handlers = some c) (hq : s.queue = q :: rest) :
    fireMessage w v s =
      ({ s with handlers := (w, q.id) :: hremove w s.handlers, queue := rest },
        [Event.dequeued q.id, Event.posted w q.id q.args, Event.resolved c v]) ∧
    fireError w (JSError.execError code) s =
      ({ s with handlers := (w, q.id) :: hremove w s.handlers, queue := rest },
        [Event.dequeued q.id, Event.posted w q.id q.args,
          Event.rejected c (JSError.execError code)]) ∧
    (fireMessage w v s).1.freeWorkers = s.freeWorkers ∧
    (fireError w (JSError.execError code) s).1.freeWorkers = s.freeWorkers := by
  refine ⟨fireMessage_eq_of_some_cons v hq hf,
    fireError_eq_of_some_cons (JSError.execError code) hq hf, ?_, ?_⟩
  · rw [fireMessage_eq_of_some_cons v hq hf]
  · rw [fireError_eq_of_some_cons (JSError.execError code) hq hf]

/-- Witness for C7: a success on the busy worker of a saturated one-worker
pool services the queued call first. -/
theorem settling_worker_services_queue_head_first_witness :
    hfind 0 (run 1 [Op.dispatch [1], Op.dispatch [2]]).1.handlers = some 0 ∧
    (run 1 [Op.dispatch [1], Op.dispatch [2]]).1.queue = [{ id := 1, args := [2] }] ∧
    (fireMessage 0 5 (run 1 [Op.dispatch [1], Op.dispatch [2]]).1).2
      = [Event.dequeued 1, Event.posted 0 1 [2], Event.resolved 0 5] := by
  refine ⟨by decide, by decide, ?_⟩
  rw [(settling_worker_services_queue_head_first
    (run 1 [Op.dispatch [1], Op.dispatch [2]]).1 0 0 { id := 1, args := [2] } [] 5 9
    (by decide) (by decide)).1]

/-- With no free worker, a dispatch only appends to the queue and emits
nothing. -/
theorem dispatch_eq_of_empty {s : PoolState} (args : List Int)
    (h : s.freeWorkers = []) :
    dispatch args s =
      ({ s with queue := s.queue ++ [{ id := s.nextCall, args := args }],
                nextCall := s.nextCall + 1 }, []) := by
  rw [dispatch]
  exact start_eq_of_empty { id := s.nextCall, args := args } h

/-- Claim C8, counterexample: on a disposed single-worker pool, a dispatch
emits no event at all — in particular no rejection — and instead leaves the
new call parked in the queue, refuting "the returned future is immediately
rejected". -/
theorem dispatch_after_dispose_counterexample :
    (step (Op.dispatch [5]) (run 1 [Op.dispose]).1).2 = [] ∧
    (step (Op.dispatch [5]) (run 1 [Op.dispose]).1).1.queue
      = [{ id := 0, args := [5] }] := by
  decide

/-- Claim C8, amended: after `dispose()` has completed, a subsequent
`dispatch(args)` appends the call to the pending queue of the dead pool and
settles nothing: the returned future is neither rejected nor resolved. -/
theorem dispatch_after_dispose_queued (n : Nat) (ops : List Op) (args : List Int) :
    (dispatch args (run n (ops ++ [Op.dispose])).1).2 = [] ∧
    (dispatch args (run n (ops ++ [Op.dispose])).1).1.queue
      = [{ id := (run n (ops ++ [Op.dispose])).1.nextCall, args := args }] := by
  have hrun : (run n (ops ++ [Op.dispose])).1 = (dispose (run n ops).1).1 := by
    rw [run, runFrom_append]
    rfl
  have hfe : (run n (ops ++ [Op.dispose])).1.freeWorkers = [] := by
    rw [hrun]
    exact (dispose_components (run n ops).1).2.1
  have hqe : (run n (ops ++ [Op.dispose])).1.queue = [] := by
    rw [hrun]
    exact (dispose_components (run n ops).1).1
  constructor
  · rw [dispatch_eq_of_empty args hfe]
  · rw [dispatch_eq_of_empty args hfe]
    show (run n (ops ++ [Op.dispose])).1.queue ++ [_] = _
    rw [hqe]
    rfl

/-- Claim C9: `dispose()` is idempotent in effect — on an already-disposed
pool a second `dispose()` returns the state unchanged and emits no event, so
no future is rejected a second time, and the pool still reports zero free,
zero running and zero queued. -/
theorem dispose_idempotent (n : Nat) (ops : List Op) :
    dispose (run n (ops ++ [Op.dispose])).1 = ((run n (ops ++ [Op.dispose])).1, []) ∧
    getFreeWorkerCount (run n (ops ++ [Op.dispose])).1 = 0 ∧
    getRunningWorkerCount (run n (ops ++ [Op.dispose])).1 = 0 ∧
    getWaitingEventCount (run n (ops ++ [Op.dispose])).1 = 0 := by
  have hrun : (run n (ops ++ [Op.dispose])).1 = (dispose (run n ops).1).1 := by
    rw [run, runFrom_append]
    rfl
  obtain ⟨hq, hf, hw, _⟩ := dispose_components (run n ops).1
  refine ⟨?_, ?_, ?_, ?_⟩
  · rw [hrun]
    exact dispose_eq_of_empty hw hf hq
  · rw [getFreeWorkerCount, hrun, hf]
    rfl
  · rw [getRunningWorkerCount, hrun, hw, hf]
    rfl
  · rw [getWaitingEventCount, hrun, hq]
    rfl

/-- Every event of the busy-worker loop of `dispose` is a termination or a
disposed-error rejection (in particular nothing is ever posted or dequeued
there, because the queue was emptied beforehand). -/
theorem disposeBusy_events_shape (ws : List Nat) :
    ∀ (s : PoolState), s.queue = [] →
      ∀ e ∈ (disposeBusy ws s).2,
        (∃ w, e = Event.terminated w) ∨
          ∃ c, e = Event.rejected c JSError.disposed := by
  induction ws with
  | nil =>
    intro s _ e he
    simp [disposeBusy] at he
  | cons w ws ih =>
    intro s hq e he
    cases hf : hfind w s.handlers with
    | some c =>
      simp only [disposeBusy, fireError_eq_of_some JSError.disposed hq hf,
        List.cons_append, List.singleton_append, List.nil_append,
        List.mem_cons] at he
      rcases he with rfl | he
      · exact Or.inl ⟨w, rfl⟩
      rcases he with rfl | he
      · exact Or.inr ⟨c, rfl⟩
      · exact ih { s with handlers := hremove w s.handlers,
                          freeWorkers := s.freeWorkers ++ [w] } hq e he
    | none =>
      simp only [disposeBusy, fireError_eq_of_none JSError.disposed hf,
        List.cons_append, List.singleton_append, List.nil_append,
        List.mem_cons] at he
      rcases he with rfl | he
      · exact Or.inl ⟨w, rfl⟩
      · exact ih s hq e he

/-- Claim C10: in the event trace of `dispose()`, the rejection of every
queued pending call (phase two) comes strictly before the events of the
busy-worker error handlers (the tail); every tail event is a termination or a
disposed rejection; and no `posted` and no `dequeued` event occurs anywhere
in a disposal — the error path always observes an empty queue and no pending
call is ever forwarded to a terminated worker. -/
theorem dispose_rejects_queue_before_busy_handlers (s : PoolState) :
    ∃ tail : List Event,
      (dispose s).2 =
        s.freeWorkers.map Event.terminated
          ++ s.queue.map (fun c => Event.rejected c.id JSError.disposed)
          ++ tail ∧
      (∀ e ∈ tail, (∃ w, e = Event.terminated w) ∨
        ∃ c, e = Event.rejected c JSError.disposed) ∧
      (∀ (w c : Nat) (a : List Int), Event.posted w c a ∉ (dispose s).2) ∧
      (∀ c : Nat, Event.dequeued c ∉ (dispose s).2) := by
  refine ⟨(disposeBusy (s.workers.filter (fun w => decide (w ∉ s.freeWorkers)))
    { s with workers := s.workers.filter (fun w => decide (w ∉ s.freeWorkers)),
             queue := [] }).2, rfl, ?_, ?_, ?_⟩
  · exact disposeBusy_events_shape _ _ rfl
  · intro w c a hmem
    rcases List.mem_append.1 hmem with hmem | hmem
    · rcases List.mem_append.1 hmem with hmem | hmem
      · rcases List.mem_map.1 hmem with ⟨x, _, he⟩
        exact Event.noConfusion he
      · rcases List.mem_map.1 hmem with ⟨x, _, he⟩
        exact Event.noConfusion he
    · rcases disposeBusy_events_shape _ _ rfl _ hmem with ⟨x, he⟩ | ⟨x, he⟩
      · exact Event.noConfusion he
      · exact Event.noConfusion he
  · intro c hmem
    rcases List.mem_append.1 hmem with hmem | hmem
    · rcases List.mem_append.1 hmem with hmem | hmem
      · rcases List.mem_map.1 hmem with ⟨x, _, he⟩
        exact Event.noConfusion he
      · rcases List.mem_map.1 hmem with ⟨x, _, he⟩
        exact Event.noConfusion he
    · rcases disposeBusy_events_shape _ _ rfl _ hmem with ⟨x, he⟩ | ⟨x, he⟩
      · exact Event.noConfusion he
      · exact Event.noConfusion he

end ThreadPool
